import Mathlib

/-!
Shallow embedding of `src/search.py` (ZigSmartSearch), a concept-based
lexical search engine: query normalisation, lemma/dictionary term
expansion, field-weighted scoring and stable descending ranking.

Strings are modelled as Lean `String` (we work on the underlying
`List Char`); the embedding covers the ASCII fragment of Python's
character classes: `\w` is `[A-Za-z0-9_]`, `\s` is space, tab, newline,
carriage return, vertical tab and form feed, and `str.lower` maps
`A`-`Z` to `a`-`z`.  Python `dict`s become association lists looked up
by first match; a Python `set` under iteration becomes an
insertion-ordered duplicate-free list (scoring is proved independent of
that order).  Python's unbounded non-negative integer scores become
`Nat` (the scorer only ever adds non-negative constants).
-/

/-- ASCII fragment of Python's `\s` class. -/
def isSpaceChar (c : Char) : Bool :=
  c = ' ' || c = '\t' || c = '\n' || c = '\r' || c = '\x0b' || c = '\x0c'

/-- ASCII fragment of Python's `\w` class: alphanumeric or underscore. -/
def isWordChar (c : Char) : Bool :=
  c.isAlphanum || c = '_'

/-- Python `str.lower` (ASCII fragment). -/
def lowerStr (s : String) : String :=
  ⟨s.data.map Char.toLower⟩

/-- Python `str.split()` with no argument: split on whitespace runs,
dropping empty pieces.  `cur` holds the current word, reversed. -/
def splitWS : List Char → List Char → List String
  | [], cur => if cur = [] then [] else [⟨cur.reverse⟩]
  | ch :: cs, cur =>
    if isSpaceChar ch then
      if cur = [] then splitWS cs [] else ⟨cur.reverse⟩ :: splitWS cs []
    else splitWS cs (ch :: cur)

/-- Python `" ".join(l)`. -/
def sjoin : List String → String
  | [] => ""
  | [w] => w
  | w :: ws => w ++ " " ++ sjoin ws

/-- Python substring test `n in h`, on the underlying character lists. -/
def isSubL (n h : List Char) : Bool :=
  (List.range (h.length + 1)).any fun i => n.isPrefixOf (h.drop i)

/-- Python substring test `n in h` on strings. -/
def strIn (n h : String) : Bool :=
  isSubL n.data h.data

/-- The `NON_EMPHASIS_WORDS` stopword set from `search.py`. -/
def NON_EMPHASIS_WORDS : List String :=
  ["a", "an", "the", "and", "but", "if", "or", "because", "as", "until", "while",
   "of", "at", "by", "for", "with", "about", "against", "between", "into", "through",
   "during", "before", "after", "above", "below", "to", "from", "up", "down", "in", "out",
   "on", "off", "over", "under", "again", "further", "then", "once", "here", "there",
   "when", "where", "why", "how", "all", "any", "both", "each", "few", "more", "most",
   "other", "some", "such", "no", "nor", "not", "only", "own", "same", "so", "than",
   "too", "very", "can", "will", "just", "don", "should", "now", "is"]

/-- Python `re.sub(r"[^\w\s]", " ", ·)` acting on one character. -/
def cleanChar (c : Char) : Char :=
  if isWordChar c || isSpaceChar c then c else ' '

/-- Function `preprocess_sentence`: lowercase, replace each character that is not a
word character or whitespace by a space, split on whitespace, drop empty
tokens and stopwords. -/
def preprocess_sentence (sentence : String) : List String :=
  let cleaned : String := ⟨(lowerStr sentence).data.map cleanChar⟩
  (splitWS cleaned.data []).filter fun w =>
    w != "" && !(NON_EMPHASIS_WORDS.contains w)

/-- Python `dict` lookup `d.get(k)`: association list, first match. -/
def dictLookup (d : List (String × String)) (k : String) : Option String :=
  (d.find? fun p => p.1 == k).map Prod.snd

/-- Function `lemmatize_word`: `LEMMATIZER.get(word, word)`.  The Python global
`LEMMATIZER` table is passed explicitly as `lem`. -/
def lemmatize_word (lem : List (String × String)) (word : String) : String :=
  (dictLookup lem word).getD word

/-- Adding one element to a Python `set` modelled as an insertion-ordered
duplicate-free list. -/
def addSet (s : List String) (w : String) : List String :=
  if s.contains w then s else s ++ [w]

/-- Function `expand_words`: original words, their lemmas, dictionary expansions
and the lemmas of those expansions, accumulated as a set. -/
def expand_words (words : List String) (dictionary lem : List (String × String)) :
    List String :=
  words.foldl
    (fun acc word =>
      let acc := addSet acc word
      let acc := addSet acc (lemmatize_word lem word)
      (splitWS ((dictLookup dictionary word).getD "").data []).foldl
        (fun a e => addSet (addSet a e) (lemmatize_word lem e)) acc)
    []

/-- A document: the three optional text fields the scorer reads
(`doc.get("title")` etc.); all other fields of the JSON record are
ignored by the core. -/
structure Doc where
  title : Option String
  description : Option String
  content : Option String

/-- Python `(x or "")` for an optional string field: `None` and the empty
string (the falsy strings) both give `""`. -/
def orEmpty (x : Option String) : String :=
  match x with
  | none => ""
  | some s => if s = "" then "" else s

def docTitle (doc : Doc) : String := lowerStr (orEmpty doc.title)

def docDesc (doc : Doc) : String := lowerStr (orEmpty doc.description)

def docContent (doc : Doc) : String := lowerStr (orEmpty doc.content)

/-- Python f-string building `full_text`: title, description and content
joined by single spaces. -/
def fullText (doc : Doc) : String :=
  docTitle doc ++ " " ++ docDesc doc ++ " " ++ docContent doc

/-- The points one word earns in a scoring loop with the given field
weights: the first of title/description/content containing it wins. -/
def wordCredit (t d c : String) (wT wD wC : Nat) (word : String) : Nat :=
  if strIn word t then wT
  else if strIn word d then wD
  else if strIn word c then wC
  else 0

/-- One iteration of either scoring loop: state is (score, matched);
skip words already matched, otherwise credit the first field (of the
given weights) containing the word and mark it matched (the Python
`set` is modelled by a list observed only through membership). -/
def passStep (t d c : String) (wT wD wC : Nat)
    (st : Nat × List String) (word : String) : Nat × List String :=
  if st.2.contains word then st
  else (st.1 + wordCredit t d c wT wD wC word, word :: st.2)

/-- A whole scoring loop (`for word in ws: ...`). -/
def runPass (t d c : String) (wT wD wC : Nat)
    (st : Nat × List String) (ws : List String) : Nat × List String :=
  ws.foldl (passStep t d c wT wD wC) st

/-- The exact-phrase bonus:
`if original_sentence and original_sentence in full_text: score += 90`. -/
def phraseBonus (doc : Doc) (original : List String) : Nat :=
  if sjoin original != "" && strIn (sjoin original) (fullText doc) then 90 else 0

/-- State (score, matched) after the phrase bonus and the original-term
pass of `calculate_score`. -/
def origState (doc : Doc) (original : List String) : Nat × List String :=
  runPass (docTitle doc) (docDesc doc) (docContent doc) 70 60 50
    (phraseBonus doc original, []) original

/-- Function `calculate_score doc original expanded`. -/
def calculate_score (doc : Doc) (original expanded : List String) : Nat :=
  (runPass (docTitle doc) (docDesc doc) (docContent doc) 10 7 5
    (origState doc original) expanded).1

/-- Function `load_dictionary`: the `try` around `open` + `json.load` is modelled
by taking the outcome of reading and parsing the source as an `Except`;
the `except` branch returns the empty mapping. -/
def load_dictionary (source : Except String (List (String × String))) :
    List (String × String) :=
  match source with
  | Except.ok d => d
  | Except.error _ => []

/-- The pure core of `search_documents` (the file reads are modelled as
in `load_dictionary`): normalise the query, expand it once, score every
document, keep strictly positive scores, and sort by descending score
with Python's stable `sorted(..., reverse=True)` (a stable merge sort). -/
def search_documents (query : String) (documents : List Doc)
    (dictionary lem : List (String × String)) : List (Doc × Nat) :=
  let original_words := preprocess_sentence query
  let expanded_words := expand_words original_words dictionary lem
  let results :=
    (documents.map fun doc => (doc, calculate_score doc original_words expanded_words)).filter
      fun p => 0 < p.2
  results.mergeSort fun a b => decide (b.2 ≤ a.2)

/-! ### Substring facts -/

theorem isPrefixOf_iff : ∀ {l l' : List Char}, l.isPrefixOf l' = true ↔ ∃ t, l' = l ++ t
  | [], l' => by simp [List.isPrefixOf]
  | a :: as, [] => by simp [List.isPrefixOf]
  | a :: as, b :: bs => by
    simp only [List.isPrefixOf, Bool.and_eq_true, beq_iff_eq, isPrefixOf_iff,
      List.cons_append, List.cons.injEq]
    constructor
    · rintro ⟨rfl, t, rfl⟩; exact ⟨t, rfl, rfl⟩
    · rintro ⟨t, rfl, rfl⟩; exact ⟨rfl, t, rfl⟩

theorem isSubL_iff {n h : List Char} : isSubL n h = true ↔ ∃ p q, h = p ++ n ++ q := by
  unfold isSubL
  rw [List.any_eq_true]
  constructor
  · rintro ⟨i, -, hpre⟩
    obtain ⟨t, ht⟩ := isPrefixOf_iff.mp hpre
    refine ⟨h.take i, t, ?_⟩
    conv_lhs => rw [← List.take_append_drop i h]
    rw [ht, List.append_assoc]
  · rintro ⟨p, q, rfl⟩
    refine ⟨p.length, ?_, ?_⟩
    · simp [List.mem_range]; omega
    · rw [List.append_assoc, List.drop_left]
      exact isPrefixOf_iff.mpr ⟨q, rfl⟩

theorem isSubL_refl (l : List Char) : isSubL l l = true :=
  isSubL_iff.mpr ⟨[], [], by simp⟩

theorem isSubL_append_right {n h : List Char} (t : List Char) (hs : isSubL n h = true) :
    isSubL n (h ++ t) = true := by
  obtain ⟨p, q, rfl⟩ := isSubL_iff.mp hs
  exact isSubL_iff.mpr ⟨p, q ++ t, by simp⟩

theorem isSubL_append_left {n h : List Char} (t : List Char) (hs : isSubL n h = true) :
    isSubL n (t ++ h) = true := by
  obtain ⟨p, q, rfl⟩ := isSubL_iff.mp hs
  exact isSubL_iff.mpr ⟨t ++ p, q, by simp⟩

theorem isSubL_trans {a b c : List Char} (h1 : isSubL a b = true) (h2 : isSubL b c = true) :
    isSubL a c = true := by
  obtain ⟨p, q, rfl⟩ := isSubL_iff.mp h1
  obtain ⟨r, s, rfl⟩ := isSubL_iff.mp h2
  exact isSubL_iff.mpr ⟨r ++ p, q ++ s, by simp⟩

theorem strIn_append_right {n h : String} (t : String) (hs : strIn n h = true) :
    strIn n (h ++ t) = true := by
  simpa [strIn, String.data_append] using isSubL_append_right t.data hs

theorem strIn_trans {a b c : String} (h1 : strIn a b = true) (h2 : strIn b c = true) :
    strIn a c = true :=
  isSubL_trans h1 h2

/-- Every member of `l` occurs as a substring of `" ".join(l)`. -/
theorem strIn_sjoin_of_mem {w : String} :
    ∀ {l : List String}, w ∈ l → strIn w (sjoin l) = true := by
  intro l
  induction l with
  | nil => intro h; cases h
  | cons a l ih =>
    intro hmem
    cases l with
    | nil =>
      have hw : w = a := by simpa using hmem
      subst hw
      exact isSubL_refl _
    | cons b t =>
      rcases List.mem_cons.mp hmem with rfl | hmem'
      · show isSubL w.data (sjoin (w :: b :: t)).data = true
        simp only [sjoin, String.data_append]
        rw [List.append_assoc]
        exact isSubL_append_right _ (isSubL_refl _)
      · show isSubL w.data (sjoin (a :: b :: t)).data = true
        simp only [sjoin, String.data_append]
        rw [List.append_assoc]
        exact isSubL_append_left _ (isSubL_append_left _ (ih hmem'))

/-- A substring of the (lowercased) title is a substring of `full_text`. -/
theorem strIn_fullText_of_title {n : String} (doc : Doc)
    (hs : strIn n (docTitle doc) = true) : strIn n (fullText doc) = true := by
  unfold fullText
  exact strIn_append_right _ (strIn_append_right _ (strIn_append_right _
    (strIn_append_right _ hs)))

theorem sjoin_ne_empty {a : String} (l : List String) (ha : a ≠ "") :
    sjoin (a :: l) ≠ "" := by
  cases l with
  | nil => exact ha
  | cons b t =>
    intro h
    have h2 := congrArg String.data h
    simp only [show sjoin (a :: b :: t) = a ++ " " ++ sjoin (b :: t) from rfl,
      String.data_append, show ("" : String).data = [] from rfl,
      show (" " : String).data = [' '] from rfl, List.append_eq_nil] at h2
    exact absurd h2.1.2 (by simp)

/-! ### The scoring passes as sums over distinct unmatched words -/

theorem sum_map_dedup_cons (f : String → Nat) (w : String) (L : List String) :
    (((w :: L).dedup).map f).sum =
      f w + (((L.filter fun v => !(v == w)).dedup).map f).sum := by
  have hnodup : (w :: (L.filter fun v => !(v == w)).dedup).Nodup := by
    refine List.nodup_cons.mpr ⟨?_, List.nodup_dedup _⟩
    intro hmem
    rw [List.mem_dedup, List.mem_filter] at hmem
    simp at hmem
  have hperm : List.Perm ((w :: L).dedup) (w :: (L.filter fun v => !(v == w)).dedup) := by
    rw [List.perm_ext_iff_of_nodup (List.nodup_dedup _) hnodup]
    intro a
    rw [List.mem_dedup, List.mem_cons, List.mem_cons, List.mem_dedup, List.mem_filter]
    by_cases ha : a = w <;> simp [ha]
  rw [(hperm.map f).sum_eq]
  simp

theorem runPass_score (t d c : String) (wT wD wC : Nat) :
    ∀ (ws : List String) (s : Nat) (m : List String),
      (runPass t d c wT wD wC (s, m) ws).1 =
        s + (((ws.filter fun w => !m.contains w).dedup).map
              (wordCredit t d c wT wD wC)).sum := by
  intro ws
  induction ws with
  | nil => intro s m; simp [runPass]
  | cons w ws ih =>
    intro s m
    have hstep : runPass t d c wT wD wC (s, m) (w :: ws)
        = runPass t d c wT wD wC (passStep t d c wT wD wC (s, m) w) ws := rfl
    by_cases h : m.contains w = true
    · rw [hstep, show passStep t d c wT wD wC (s, m) w = (s, m) from by
        unfold passStep; rw [if_pos h]]
      rw [ih, List.filter_cons_of_neg (by simpa using h)]
    · rw [hstep, show passStep t d c wT wD wC (s, m) w
            = (s + wordCredit t d c wT wD wC w, w :: m) from by
          unfold passStep; rw [if_neg h]]
      rw [ih, List.filter_cons_of_pos (by simpa using h), sum_map_dedup_cons]
      have hfil : (ws.filter fun v => !(w :: m).contains v)
          = (ws.filter fun v => !m.contains v).filter fun v => !(v == w) := by
        rw [List.filter_filter]
        apply List.filter_congr
        intro a _
        simp only [List.contains_cons, Bool.not_or]
      rw [hfil]
      omega

theorem origState_score (doc : Doc) (original : List String) :
    (origState doc original).1 =
      phraseBonus doc original +
        ((original.dedup).map
          (wordCredit (docTitle doc) (docDesc doc) (docContent doc) 70 60 50)).sum := by
  unfold origState
  rw [runPass_score]
  simp

theorem calculate_score_eq (doc : Doc) (original expanded : List String) :
    calculate_score doc original expanded =
      (origState doc original).1 +
        (((expanded.filter fun w => !(origState doc original).2.contains w).dedup).map
          (wordCredit (docTitle doc) (docDesc doc) (docContent doc) 10 7 5)).sum := by
  have h := runPass_score (docTitle doc) (docDesc doc) (docContent doc) 10 7 5 expanded
    (origState doc original).1 (origState doc original).2
  exact h

/-! ### The matched set after a pass -/

theorem runPass_matched_mono (t d c : String) (wT wD wC : Nat) {w : String} :
    ∀ (ws : List String) (st : Nat × List String), st.2.contains w = true →
      (runPass t d c wT wD wC st ws).2.contains w = true := by
  intro ws
  induction ws with
  | nil => intro st h; exact h
  | cons x ws ih =>
    intro st h
    show (runPass t d c wT wD wC (passStep t d c wT wD wC st x) ws).2.contains w = true
    apply ih
    unfold passStep
    split
    · exact h
    · simp only [List.contains_cons, Bool.or_eq_true]
      right
      exact h

theorem runPass_matched_mem (t d c : String) (wT wD wC : Nat) {w : String} :
    ∀ (ws : List String) (st : Nat × List String), w ∈ ws →
      (runPass t d c wT wD wC st ws).2.contains w = true := by
  intro ws
  induction ws with
  | nil => intro st h; cases h
  | cons x ws ih =>
    intro st hmem
    rcases List.mem_cons.mp hmem with rfl | h'
    · show (runPass t d c wT wD wC (passStep t d c wT wD wC st w) ws).2.contains w = true
      apply runPass_matched_mono
      unfold passStep
      split
      next hx => exact hx
      next hx => simp [List.contains_cons]
    · exact ih (passStep t d c wT wD wC st x) h'

/-! ### Membership facts about the expander's set accumulation -/

theorem mem_addSet_of_mem {a : String} (s : List String) (w : String) (h : a ∈ s) :
    a ∈ addSet s w := by
  unfold addSet
  split
  · exact h
  · exact List.mem_append_left _ h

theorem mem_addSet_self (s : List String) (w : String) : w ∈ addSet s w := by
  unfold addSet
  split
  next h => simpa using h
  next h => exact List.mem_append_right _ (by simp)

theorem mem_foldl_addSet_pair {a : String} (lem : List (String × String)) :
    ∀ (es acc : List String), a ∈ acc →
      a ∈ es.foldl (fun x e => addSet (addSet x e) (lemmatize_word lem e)) acc := by
  intro es
  induction es with
  | nil => intro acc h; exact h
  | cons e es ih =>
    intro acc h
    exact ih _ (mem_addSet_of_mem _ _ (mem_addSet_of_mem _ _ h))

/-- C2: in the Scorer's original-term pass every original word ends up in
the matched set unconditionally (whether or not it earned points), and
consequently original words can never earn expanded-pass credit: deleting
them from the expanded list leaves the score unchanged. -/
theorem original_words_always_matched (doc : Doc) (original expanded : List String) :
    (original.all fun w => (origState doc original).2.contains w) = true ∧
    calculate_score doc original expanded =
      calculate_score doc original (expanded.filter fun w => !original.contains w) := by
  have hall : ∀ w ∈ original, (origState doc original).2.contains w = true := by
    intro w hw
    exact runPass_matched_mem _ _ _ _ _ _ original _ hw
  refine ⟨List.all_eq_true.mpr hall, ?_⟩
  have hlist : (expanded.filter fun w => !(origState doc original).2.contains w)
      = ((expanded.filter fun w => !original.contains w).filter
          fun w => !(origState doc original).2.contains w) := by
    rw [List.filter_filter]
    apply List.filter_congr
    intro a _
    by_cases hmem : a ∈ original
    · have h1 := hall a hmem
      simp only [h1]
      simp
    · have h2 : original.contains a = false := by simpa using hmem
      simp only [h2]
      simp
  rw [calculate_score_eq, calculate_score_eq, ← hlist]

/-- C6: for every word `w`, dictionary and lemma table, the expansion of
the one-token query `[w]` contains both `w` and `lemma(w)`; lookups always
fall back to identity, so this needs no assumption on the tables. -/
theorem expand_contains_word_and_lemma (dictionary lem : List (String × String))
    (w : String) :
    w ∈ expand_words [w] dictionary lem ∧
      lemmatize_word lem w ∈ expand_words [w] dictionary lem := by
  unfold expand_words
  simp only [List.foldl_cons, List.foldl_nil]
  constructor
  · exact mem_foldl_addSet_pair lem _ _ (mem_addSet_of_mem _ _ (mem_addSet_self [] w))
  · exact mem_foldl_addSet_pair lem _ _ (mem_addSet_self _ _)

/-- C7: an unreadable or malformed dictionary source yields the empty
mapping instead of an error, and the search then simply runs with the
empty expansion dictionary. -/
theorem load_dictionary_error_empty (e : String) (query : String)
    (documents : List Doc) (lem : List (String × String)) :
    load_dictionary (Except.error e) = [] ∧
    search_documents query documents (load_dictionary (Except.error e)) lem =
      search_documents query documents [] lem :=
  ⟨rfl, rfl⟩

theorem calculate_score_congr {d1 d2 : Doc} (h1 : docTitle d1 = docTitle d2)
    (h2 : docDesc d1 = docDesc d2) (h3 : docContent d1 = docContent d2)
    (original expanded : List String) :
    calculate_score d1 original expanded = calculate_score d2 original expanded := by
  unfold calculate_score origState phraseBonus fullText
  rw [h1, h2, h3]

/-- C10: a field that is present but null (falsy) scores exactly like an
absent/empty field: each of title, description and content defaults to the
empty string, so the scorer is total on documents missing any field. -/
theorem falsy_field_like_absent (t dsc cnt : Option String)
    (original expanded : List String) :
    (calculate_score ⟨none, dsc, cnt⟩ original expanded =
       calculate_score ⟨some "", dsc, cnt⟩ original expanded) ∧
    (calculate_score ⟨t, none, cnt⟩ original expanded =
       calculate_score ⟨t, some "", cnt⟩ original expanded) ∧
    (calculate_score ⟨t, dsc, none⟩ original expanded =
       calculate_score ⟨t, dsc, some ""⟩ original expanded) :=
  ⟨calculate_score_congr (by simp [docTitle, orEmpty]) rfl rfl _ _,
   calculate_score_congr rfl (by simp [docDesc, orEmpty]) rfl _ _,
   calculate_score_congr rfl rfl (by simp [docContent, orEmpty]) _ _⟩

/-- C4: the worked scenario — dictionary `{"fast": "quick rapid"}`, lemma
table `{"running": "run"}`, query "fast running", document
`{title: "Quick results", content: "we run fast tests"}`: normalisation,
expansion and a final score of exactly 65. -/
theorem scenario_fast_running :
    preprocess_sentence "fast running" = ["fast", "running"] ∧
    ("fast" ∈ expand_words (preprocess_sentence "fast running")
        [("fast", "quick rapid")] [("running", "run")] ∧
     "quick" ∈ expand_words (preprocess_sentence "fast running")
        [("fast", "quick rapid")] [("running", "run")] ∧
     "rapid" ∈ expand_words (preprocess_sentence "fast running")
        [("fast", "quick rapid")] [("running", "run")] ∧
     "running" ∈ expand_words (preprocess_sentence "fast running")
        [("fast", "quick rapid")] [("running", "run")] ∧
     "run" ∈ expand_words (preprocess_sentence "fast running")
        [("fast", "quick rapid")] [("running", "run")]) ∧
    calculate_score ⟨some "Quick results", none, some "we run fast tests"⟩
      (preprocess_sentence "fast running")
      (expand_words (preprocess_sentence "fast running")
        [("fast", "quick rapid")] [("running", "run")]) = 65 := by
  decide

/-- C5 counterexample: Python's `\w` keeps the underscore, so the token
"a_b" survives normalisation intact although `_` is not alphanumeric. -/
theorem normalizer_underscore_counterexample :
    preprocess_sentence "a_b" = ["a_b"] ∧
    '_' ∈ ("a_b" : String).data ∧ ('_'.isAlphanum = false) := by
  decide

/-- Characters of any word produced by `splitWS` come from the input (or
the carried current word) and are never whitespace. -/
theorem splitWS_chars :
    ∀ (cs cur : List Char), (∀ ch ∈ cur, isSpaceChar ch = false) →
      ∀ w ∈ splitWS cs cur, ∀ ch ∈ w.data,
        (ch ∈ cs ∨ ch ∈ cur) ∧ isSpaceChar ch = false := by
  intro cs
  induction cs with
  | nil =>
    intro cur hcur w hw ch hch
    simp only [splitWS] at hw
    split at hw
    · simp at hw
    · rw [List.mem_singleton] at hw
      subst hw
      have hmem : ch ∈ cur.reverse := hch
      rw [List.mem_reverse] at hmem
      exact ⟨Or.inr hmem, hcur ch hmem⟩
  | cons c0 cs ih =>
    intro cur hcur w hw ch hch
    simp only [splitWS] at hw
    split at hw
    · split at hw
      · have h := ih [] (by simp) w hw ch hch
        exact ⟨Or.inl (List.mem_cons_of_mem _ (h.1.resolve_right (List.not_mem_nil ch))), h.2⟩
      · rcases List.mem_cons.mp hw with rfl | hw'
        · have hmem : ch ∈ cur.reverse := hch
          rw [List.mem_reverse] at hmem
          exact ⟨Or.inr hmem, hcur ch hmem⟩
        · have h := ih [] (by simp) w hw' ch hch
          exact ⟨Or.inl (List.mem_cons_of_mem _ (h.1.resolve_right (List.not_mem_nil ch))), h.2⟩
    · next hns =>
      have hcur' : ∀ ch' ∈ c0 :: cur, isSpaceChar ch' = false := by
        intro ch' h'
        rcases List.mem_cons.mp h' with rfl | h''
        · simpa using hns
        · exact hcur ch' h''
      have h := ih (c0 :: cur) hcur' w hw ch hch
      rcases h.1 with h1 | h1
      · exact ⟨Or.inl (List.mem_cons_of_mem _ h1), h.2⟩
      · rcases List.mem_cons.mp h1 with rfl | h2
        · exact ⟨Or.inl (List.mem_cons_self _ _), h.2⟩
        · exact ⟨Or.inr h2, h.2⟩

/-- C5 amended: every token the normalizer outputs consists only of word
characters (alphanumeric or underscore) — not, as claimed, alphanumeric
characters only, since the underscore is kept. -/
theorem normalizer_tokens_word_chars (s : String) :
    ((preprocess_sentence s).all fun w => w.data.all isWordChar) = true := by
  rw [List.all_eq_true]
  intro w hw
  rw [List.all_eq_true]
  intro ch hch
  unfold preprocess_sentence at hw
  have hw' := (List.mem_filter.mp hw).1
  have h := splitWS_chars _ [] (by simp) w hw' ch hch
  have h1 : ch ∈ (s.data.map Char.toLower).map cleanChar :=
    (h.1.resolve_right (List.not_mem_nil ch))
  rw [List.mem_map] at h1
  obtain ⟨c1, -, rfl⟩ := h1
  unfold cleanChar
  unfold cleanChar at h
  split
  next hcond =>
    rcases Bool.or_eq_true _ _ |>.mp hcond with hword | hspace
    · exact hword
    · rw [if_pos hcond] at h
      exact absurd h.2 (by rw [hspace]; simp)
  next hcond =>
    rw [if_neg hcond] at h
    exact absurd h.2 (by simp [isSpaceChar])

/-! ### The title-phrase lower bound (C3) -/

theorem preprocess_token_ne_empty {q w : String} (hw : w ∈ preprocess_sentence q) :
    w ≠ "" := by
  unfold preprocess_sentence at hw
  have h := (List.mem_filter.mp hw).2
  simp only [Bool.and_eq_true, bne_iff_ne] at h
  exact h.1

/-- C3 counterexample: for the stopword-only query "the" the normalized
phrase is empty, hence (vacuously) contained in any title, no query term
matches any field, yet the score is 0, below the claimed bound of 90. -/
theorem title_phrase_bound_counterexample :
    (strIn (sjoin (preprocess_sentence "the")) (docTitle ⟨some "x", none, none⟩) = true) ∧
    ((preprocess_sentence "the").all
      (fun w => !strIn w (docDesc ⟨some "x", none, none⟩) &&
                !strIn w (docContent ⟨some "x", none, none⟩)) = true) ∧
    calculate_score ⟨some "x", none, none⟩ (preprocess_sentence "the")
      (expand_words (preprocess_sentence "the") [] []) = 0 ∧
    ¬(90 + 70 * (preprocess_sentence "the").dedup.length ≤
        calculate_score ⟨some "x", none, none⟩ (preprocess_sentence "the")
          (expand_words (preprocess_sentence "the") [] [])) := by
  decide

/-- C3 amended: provided the normalized query is nonempty, a document
whose lowercased title contains the whole normalized query phrase scores
at least `90 + 70 * (number of distinct normalized query words)`, whatever
the expanded term list is. -/
theorem title_phrase_lower_bound (doc : Doc) (query : String) (expanded : List String)
    (hne : preprocess_sentence query ≠ [])
    (htitle : strIn (sjoin (preprocess_sentence query)) (docTitle doc) = true)
    (_hother : (preprocess_sentence query).all
        (fun w => !strIn w (docDesc doc) && !strIn w (docContent doc)) = true) :
    90 + 70 * (preprocess_sentence query).dedup.length ≤
      calculate_score doc (preprocess_sentence query) expanded := by
  set original := preprocess_sentence query with horig
  obtain ⟨a, l, hal⟩ : ∃ a l, original = a :: l := by
    cases hh : original with
    | nil => exact absurd hh hne
    | cons a l => exact ⟨a, l, rfl⟩
  have hamem : a ∈ preprocess_sentence query := by
    rw [← horig, hal]
    exact List.mem_cons_self a l
  have hane : a ≠ "" := preprocess_token_ne_empty hamem
  have hsne : sjoin original ≠ "" := by
    rw [hal]
    exact sjoin_ne_empty l hane
  have hcond : (sjoin original != "" && strIn (sjoin original) (fullText doc)) = true := by
    rw [Bool.and_eq_true]
    exact ⟨bne_iff_ne.mpr hsne, strIn_fullText_of_title doc htitle⟩
  have hbonus : phraseBonus doc original = 90 := by
    unfold phraseBonus
    rw [if_pos hcond]
  have hcredit : ∀ w ∈ original.dedup,
      wordCredit (docTitle doc) (docDesc doc) (docContent doc) 70 60 50 w = 70 := by
    intro w hw
    have hw' : w ∈ original := List.mem_dedup.mp hw
    have h1 : strIn w (sjoin original) = true := strIn_sjoin_of_mem hw'
    have h2 : strIn w (docTitle doc) = true := strIn_trans h1 htitle
    unfold wordCredit
    rw [if_pos h2]
  have hsum : ((original.dedup).map
      (wordCredit (docTitle doc) (docDesc doc) (docContent doc) 70 60 50)).sum
      = 70 * original.dedup.length := by
    rw [List.map_congr_left hcredit, List.map_const', List.sum_replicate, smul_eq_mul,
      Nat.mul_comm]
  calc 90 + 70 * original.dedup.length
      = phraseBonus doc original + ((original.dedup).map
          (wordCredit (docTitle doc) (docDesc doc) (docContent doc) 70 60 50)).sum := by
        rw [hbonus, hsum]
    _ = (origState doc original).1 := (origState_score doc original).symm
    _ ≤ calculate_score doc original expanded := by
        rw [calculate_score_eq doc original expanded]
        exact Nat.le_add_right _ _

/-- Witness for the amended C3 at a concrete query and document. -/
theorem title_phrase_lower_bound_witness :
    90 + 70 * (preprocess_sentence "quick fox").dedup.length ≤
      calculate_score ⟨some "quick fox jumps", none, none⟩
        (preprocess_sentence "quick fox") [] :=
  title_phrase_lower_bound ⟨some "quick fox jumps", none, none⟩ "quick fox" []
    (by decide) (by decide) (by decide)

/-! ### Monotonicity and order-independence of the expanded pass -/

theorem sum_le_of_sublist : ∀ {l1 l2 : List Nat}, l1.Sublist l2 → l1.sum ≤ l2.sum := by
  intro l1 l2 h
  induction h with
  | slnil => exact Nat.le_refl 0
  | cons a h ih => simp only [List.sum_cons]; omega
  | cons₂ a h ih => simp only [List.sum_cons]; omega

/-- C8: the scorer is monotone in the expanded term set — growing a
duplicate-free expanded collection can only increase the score. -/
theorem score_monotone_in_expanded (doc : Doc) (original E E' : List String)
    (_hE : E.Nodup) (_hE' : E'.Nodup) (hsub : E ⊆ E') :
    calculate_score doc original E ≤ calculate_score doc original E' := by
  rw [calculate_score_eq doc original E, calculate_score_eq doc original E']
  apply Nat.add_le_add_left
  have hsubA : (E.filter fun w => !(origState doc original).2.contains w).dedup
      ⊆ (E'.filter fun w => !(origState doc original).2.contains w).dedup := by
    intro a ha
    rw [List.mem_dedup, List.mem_filter] at ha ⊢
    exact ⟨hsub ha.1, ha.2⟩
  obtain ⟨l, hlp, hls⟩ :=
    List.subperm_of_subset (List.nodup_dedup _) hsubA
  calc ((List.map (wordCredit (docTitle doc) (docDesc doc) (docContent doc) 10 7 5)
          ((E.filter fun w => !(origState doc original).2.contains w).dedup))).sum
      = ((List.map (wordCredit (docTitle doc) (docDesc doc) (docContent doc) 10 7 5) l)).sum :=
        ((hlp.map _).sum_eq).symm
    _ ≤ _ := sum_le_of_sublist (hls.map _)

/-- Witness for C8 at concrete inputs. -/
theorem score_monotone_in_expanded_witness :
    calculate_score ⟨some "alpha beta", none, none⟩ [] ["alpha"] ≤
      calculate_score ⟨some "alpha beta", none, none⟩ [] ["alpha", "beta"] :=
  score_monotone_in_expanded ⟨some "alpha beta", none, none⟩ [] ["alpha"]
    ["alpha", "beta"] (by decide) (by decide)
    (by intro a ha; simp at ha; subst ha; simp)

/-- C9: the score does not depend on the iteration order of the expanded
terms — any permutation of a duplicate-free expanded list scores the same. -/
theorem score_expanded_order_invariant (doc : Doc) (original E E' : List String)
    (_hE : E.Nodup) (hperm : List.Perm E' E) :
    calculate_score doc original E' = calculate_score doc original E := by
  rw [calculate_score_eq doc original E', calculate_score_eq doc original E]
  congr 1
  exact (((hperm.filter _).dedup).map _).sum_eq

/-- Witness for C9 at concrete inputs. -/
theorem score_expanded_order_invariant_witness :
    calculate_score ⟨some "alpha beta", none, none⟩ [] ["beta", "alpha"] =
      calculate_score ⟨some "alpha beta", none, none⟩ [] ["alpha", "beta"] :=
  score_expanded_order_invariant ⟨some "alpha beta", none, none⟩ []
    ["alpha", "beta"] ["beta", "alpha"] (by decide) (by decide)

/-! ### The ranked result list (C1) -/

/-- C1: the ranked list returned by the search pipeline consists exactly
of the positively scored documents, is sorted by non-increasing score,
and is stable: for every score value, the sublist of results carrying
that score equals (in order) the sublist of positively scored input
documents carrying it. -/
theorem search_ranking_spec (query : String) (documents : List Doc)
    (dictionary lem : List (String × String)) :
    (search_documents query documents dictionary lem).Pairwise (fun a b => b.2 ≤ a.2) ∧
    ∀ v : Nat,
      (search_documents query documents dictionary lem).filter (fun p => p.2 == v) =
        ((documents.map fun doc =>
            (doc, calculate_score doc (preprocess_sentence query)
              (expand_words (preprocess_sentence query) dictionary lem))).filter
          fun p => 0 < p.2).filter (fun p => p.2 == v) := by
  have htrans : ∀ (a b c : Doc × Nat), decide (b.2 ≤ a.2) = true →
      decide (c.2 ≤ b.2) = true → decide (c.2 ≤ a.2) = true := by
    intro a b c h1 h2
    simp only [decide_eq_true_eq] at h1 h2 ⊢
    omega
  have htotal : ∀ (a b : Doc × Nat),
      (decide (b.2 ≤ a.2) || decide (a.2 ≤ b.2)) = true := by
    intro a b
    simp only [Bool.or_eq_true, decide_eq_true_eq]
    omega
  have hsd : search_documents query documents dictionary lem
      = ((documents.map fun doc =>
            (doc, calculate_score doc (preprocess_sentence query)
              (expand_words (preprocess_sentence query) dictionary lem))).filter
          fun p => 0 < p.2).mergeSort (fun a b => decide (b.2 ≤ a.2)) := rfl
  set scored := (documents.map fun doc =>
      (doc, calculate_score doc (preprocess_sentence query)
        (expand_words (preprocess_sentence query) dictionary lem))).filter
    fun p => 0 < p.2 with hscored
  constructor
  · rw [hsd]
    exact (List.sorted_mergeSort htrans htotal scored).imp fun h => by simpa using h
  · intro v
    rw [hsd]
    have hpair : (scored.filter fun p => p.2 == v).Pairwise
        (fun a b => decide (b.2 ≤ a.2) = true) := by
      apply List.pairwise_of_forall_mem_list
      intro a ha b hb
      have h1 : a.2 == v := (List.mem_filter.mp ha).2
      have h2 : b.2 == v := (List.mem_filter.mp hb).2
      simp only [beq_iff_eq] at h1 h2
      simp only [decide_eq_true_eq]
      omega
    have h3 : (scored.filter fun p => p.2 == v).Sublist
        (scored.mergeSort fun a b => decide (b.2 ≤ a.2)) :=
      List.sublist_mergeSort htrans htotal hpair (List.filter_sublist scored)
    have h4 : (scored.filter fun p => p.2 == v).Sublist
        ((scored.mergeSort fun a b => decide (b.2 ≤ a.2)).filter fun p => p.2 == v) := by
      have h5 := h3.filter fun p => p.2 == v
      rwa [List.filter_eq_self.mpr (fun a ha => (List.mem_filter.mp ha).2)] at h5
    have hlen : ((scored.mergeSort fun a b => decide (b.2 ≤ a.2)).filter
        fun p => p.2 == v).length = (scored.filter fun p => p.2 == v).length :=
      (((List.mergeSort_perm scored fun a b => decide (b.2 ≤ a.2)).filter
        fun p => p.2 == v)).length_eq
    exact (h4.eq_of_length hlen.symm).symm
